import Mathlib

/-!
# EdgeOrchestra — verification of the orchestrator core

Shallow embedding of the EdgeOrchestra orchestrator services
(`orchestrator/services/fed_avg.py`, `gradient_codec.py`,
`device_scheduler.py`, `heartbeat_monitor.py`, `training_coordinator.py`)
and proofs about them.

Modelling conventions:
* Python `bytes` values are `List Nat` with every element `< 256`;
  a Python truncating slice `data[o : o+n]` is `(data.drop o).take n`.
  Integer read offsets into a buffer are represented by the remaining
  suffix of the byte list (reading advances by dropping consumed bytes).
* `struct.unpack_from("<I", data, off)` raises when fewer than 4 bytes are
  available, and `np.frombuffer(..., count, offset)` raises when fewer than
  `count · itemsize` bytes are available; fallible reads return `Option`.
* float32 values are carried as their 32-bit little-endian bit patterns
  (`Nat < 2^32`) wherever the code only moves bytes around
  (`tobytes`/`frombuffer`/`astype` to the same width are pattern-preserving),
  and are decoded to exact rationals (`f32ToRat`) where the code does
  arithmetic on them; Python float arithmetic is modelled as exact `ℚ`
  arithmetic and theorems about it concern the algebraic structure of the
  computation.  UTF-8 encode/decode of layer names is the identity on the
  underlying byte strings, so names are kept as byte lists.
* Python `dict` assignment `d[k] = v` is `dictInsert` (overwrite in place,
  append when absent); iteration order is insertion order, as in Python.
-/

namespace EdgeOrchestra

/-! ## Byte-level primitives (struct / numpy) -/

/-- `struct.pack("<I", n)`: four little-endian bytes of `n` (callers ensure
`n < 2^32`; `struct.pack` raises otherwise, which serializers check). -/
def toLE4 (n : Nat) : List Nat :=
  [n % 256, n / 256 % 256, n / 65536 % 256, n / 16777216 % 256]

/-- Recompose a little-endian byte list into the number it denotes. -/
def wordLE (bs : List Nat) : Nat :=
  bs.foldr (fun b acc => acc * 256 + b) 0

/-- `struct.unpack_from("<I", data, off)` at the suffix starting at `off`:
read a little-endian u32, return it with the remaining bytes; `none` when
fewer than 4 bytes remain (struct.error). -/
def readU32 (data : List Nat) : Option (Nat × List Nat) :=
  if 4 ≤ data.length then some (wordLE (data.take 4), data.drop 4) else none

/-- `np.frombuffer(data, dtype of width w, count)` at the current suffix:
split off `count` words of `w` bytes each (little-endian); `none` when the
buffer is too small (numpy raises). -/
def splitWords (w : Nat) : Nat → List Nat → Option (List Nat × List Nat)
  | 0, data => some ([], data)
  | c + 1, data =>
      if w ≤ data.length then
        match splitWords w c (data.drop w) with
        | some (ws, rest) => some (wordLE (data.take w) :: ws, rest)
        | none => none
      else none

/-! ## Association lists as Python dicts -/

/-- Python `d[k] = v`: overwrite in place when the key exists (keeping its
position, as dicts do), append otherwise. -/
def dictInsert {α : Type} (m : List (List Nat × α)) (k : List Nat) (v : α) :
    List (List Nat × α) :=
  match m with
  | [] => [(k, v)]
  | (k', v') :: rest =>
      if k' = k then (k', v) :: rest else (k', v') :: dictInsert rest k v

/-! ## fed_avg.py — binary weight-delta serialization

Binary format (little-endian):
`[layer_count u32] ([name_len u32][name bytes][elem_count u32][values f32 × n])*`
-/

def strBytes (s : String) : List Nat := s.data.map Char.toNat

/-- `LAYER_NAMES = ["hidden_weight", "hidden_bias", "output_weight", "output_bias"]`
as UTF-8 byte strings. -/
def LAYER_NAMES : List (List Nat) :=
  [strBytes "hidden_weight", strBytes "hidden_bias",
   strBytes "output_weight", strBytes "output_bias"]

/-- One record of `serialize_weight_deltas`: name length, name bytes, element
count, and the 4-byte little-endian encodings of the float32 bit patterns.
`struct.pack("<I", ·)` raises for values ≥ 2^32, hence the guards. -/
def serializeLayer (name : List Nat) (values : List Nat) : Option (List Nat) :=
  if name.length < 2 ^ 32 ∧ values.length < 2 ^ 32 then
    some (toLE4 name.length ++ name ++ toLE4 values.length ++
          (values.map toLE4).flatten)
  else none

/-- `serialize_weight_deltas(deltas, layer_names)`.  `deltas` maps layer-name
byte strings to flat lists of float32 bit patterns (the model of
`ndarray.astype(np.float32).flatten()` output).  Encodes exactly the names of
`layer_names` (default `LAYER_NAMES`) that are keys of `deltas`, in that
order. -/
def serialize_weight_deltas (deltas : List (List Nat × List Nat))
    (layer_names : Option (List (List Nat)) := none) : Option (List Nat) :=
  let names := layer_names.getD LAYER_NAMES
  let layers := names.filter (fun k => (deltas.lookup k).isSome)
  if layers.length < 2 ^ 32 then
    match layers.mapM (fun k => serializeLayer k ((deltas.lookup k).getD [])) with
    | some parts => some (toLE4 layers.length ++ parts.flatten)
    | none => none
  else none

/-- The per-layer loop body of `deserialize_weight_deltas`, generic in the
interpretation `f` of each 32-bit float pattern: read `name_length`, slice the
name (Python slices truncate silently; the offset advances by `name_length`
regardless, so a truncated name makes the next read fail), read
`element_count`, then consume exactly `element_count · 4` bytes of values. -/
def parseLayers {α : Type} (f : Nat → α) :
    Nat → List Nat → List (List Nat × List α) →
    Option (List (List Nat × List α) × List Nat)
  | 0, data, acc => some (acc, data)
  | c + 1, data, acc =>
      match readU32 data with
      | none => none
      | some (nameLen, d1) =>
          let name := d1.take nameLen
          let d2 := d1.drop nameLen
          match readU32 d2 with
          | none => none
          | some (elemCount, d3) =>
              match splitWords 4 elemCount d3 with
              | none => none
              | some (ws, d4) =>
                  parseLayers f c d4 (dictInsert acc name (ws.map f))

/-- `deserialize_weight_deltas` returning also the unconsumed suffix of the
input (the final read offset): read `layer_count`, then that many layer
records.  No check is made that the suffix is empty. -/
def runDeserialize {α : Type} (f : Nat → α) (data : List Nat) :
    Option (List (List Nat × List α) × List Nat) :=
  match readU32 data with
  | none => none
  | some (layerCount, d1) => parseLayers f layerCount d1 []

/-- `deserialize_weight_deltas(data)` with values as float32 bit patterns. -/
def deserialize_weight_deltas (data : List Nat) :
    Option (List (List Nat × List Nat)) :=
  (runDeserialize id data).map Prod.fst

/-! ## IEEE-754 interpretations of the stored bit patterns -/

/-- Exact widening of an IEEE-754 binary16 bit pattern to the binary32 bit
pattern with the same value (`ndarray.astype` from float16 to float32):
sign copied, normal exponents rebased from bias 15 to bias 127, subnormals
renormalised, infinities and NaNs mapped to exponent 255 with the mantissa
shifted into the wider field. -/
def f16ToF32Bits (h : Nat) : Nat :=
  let s := h / 32768 % 2
  let e := h / 1024 % 32
  let m := h % 1024
  if e = 0 then
    if m = 0 then s * 2 ^ 31
    else
      let p := Nat.log2 m
      s * 2 ^ 31 + (103 + p) * 2 ^ 23 + m * 2 ^ (23 - p) % 2 ^ 23
  else if e = 31 then s * 2 ^ 31 + 255 * 2 ^ 23 + m * 8192
  else s * 2 ^ 31 + (e + 112) * 2 ^ 23 + m * 8192

/-- The exact rational value of a finite IEEE-754 binary32 bit pattern
(normal: `±(2^23 + m) · 2^(e-150)`; subnormal: `±m · 2^(-149)`).
Infinities and NaNs (exponent 255) are outside the model; theorems doing
arithmetic on values assume finite patterns. -/
def f32ToRat (w : Nat) : ℚ :=
  let s : ℚ := if w / 2 ^ 31 % 2 = 1 then -1 else 1
  let e : Nat := w / 2 ^ 23 % 256
  let m : Nat := w % 2 ^ 23
  if e = 0 then s * (m : ℚ) / 2 ^ 149
  else if e = 255 then 0
  else s * ((2 ^ 23 + m : Nat) : ℚ) * 2 ^ e / 2 ^ 150

/-! ## gradient_codec.py — float16 quantization + lz4 block compression

Wire format (compressed): `[magic 0x01][original_size u32 le][lz4 block body]`.
A first byte other than `0x01` means legacy float32 passthrough.
-/

def MAGIC : Nat := 1

/-- Linear-small-integer-code of LZ4: a length nibble of 15 is followed by
extension bytes, each adding 255, until a byte below 255 (which is added and
ends the code).  Running off the input is an error. -/
def lz4Lsic : Nat → List Nat → Option (Nat × List Nat)
  | _, [] => none
  | acc, b :: rest =>
      if b = 255 then lz4Lsic (acc + 255) rest else some (acc + b, rest)

/-- Read a sequence length from its 4-bit nibble, with LSIC extension when the
nibble is 15. -/
def lz4Len (nibble : Nat) (src : List Nat) : Option (Nat × List Nat) :=
  if nibble = 15 then lz4Lsic 15 src else some (nibble, src)

/-- Overlapping backwards match copy: append, byte by byte, the byte `offset`
positions before the current end of the output. -/
def lz4CopyMatch : List Nat → Nat → Nat → List Nat
  | out, _, 0 => out
  | out, offset, n + 1 =>
      lz4CopyMatch (out ++ [out.getD (out.length - offset) 0]) offset n

/-- One-token-per-step LZ4 block decoding: token = literal nibble ∥ match
nibble; copy the literals; an input ending right after the literals is the
final sequence; otherwise read a 2-byte little-endian match offset (0 or
larger than the output so far is invalid) and a match length (nibble + 4),
and copy the match.  Models the external `lz4.block.decompress` dependency
from the published LZ4 block format. -/
def lz4Dec : Nat → List Nat → List Nat → Option (List Nat)
  | _, [], _ => none
  | 0, _ :: _, _ => none
  | fuel + 1, token :: rest, out =>
      match lz4Len (token / 16) rest with
      | none => none
      | some (litLen, r1) =>
          if litLen ≤ r1.length then
            let out := out ++ r1.take litLen
            match r1.drop litLen with
            | [] => some out
            | [_] => none
            | o0 :: o1 :: r2 =>
                let offset := o0 + 256 * o1
                if offset = 0 ∨ out.length < offset then none
                else
                  match lz4Len (token % 16) r2 with
                  | none => none
                  | some (extLen, r3) =>
                      lz4Dec fuel r3 (lz4CopyMatch out offset (extLen + 4))
          else none

/-- `lz4.block.decompress(src, uncompressed_size=n)`: block-decode `src` and
require the output to have exactly the advertised size. -/
def lz4_block_decompress (src : List Nat) (uncompressedSize : Nat) :
    Option (List Nat) :=
  match lz4Dec (src.length + 1) src [] with
  | some out => if out.length = uncompressedSize then some out else none
  | none => none

/-- The per-layer loop of `_dequantize_f16_to_f32`: re-emit the header fields
and widen each 2-byte float16 value to its 4-byte float32 encoding. -/
def dequantLayers : Nat → List Nat → List (List Nat) → Option (List Nat)
  | 0, _, parts => some parts.flatten
  | c + 1, data, parts =>
      match readU32 data with
      | none => none
      | some (nameLen, d1) =>
          let name := d1.take nameLen
          let d2 := d1.drop nameLen
          match readU32 d2 with
          | none => none
          | some (elemCount, d3) =>
              match splitWords 2 elemCount d3 with
              | none => none
              | some (hs, d4) =>
                  dequantLayers c d4
                    (parts ++ [toLE4 nameLen ++ name ++ toLE4 elemCount ++
                               (hs.map (fun h => toLE4 (f16ToF32Bits h))).flatten])

/-- `_dequantize_f16_to_f32(data)`: walk the layered format with float16
values and emit the same structure with float32 values. -/
def dequantizeF16ToF32 (data : List Nat) : Option (List Nat) :=
  match readU32 data with
  | none => none
  | some (layerCount, d1) => dequantLayers layerCount d1 [toLE4 layerCount]

/-- `decompress_gradients(data)`: legacy float32 passthrough unless the first
byte is the magic `0x01`; otherwise read `original_size`, lz4-decompress the
remainder to that size, and dequantize float16 → float32. -/
def decompress_gradients (data : List Nat) : Option (List Nat) :=
  if data.length < 1 ∨ data.headD 0 ≠ MAGIC then some data
  else
    match readU32 (data.drop 1) with
    | none => none
    | some (originalSize, compressedPayload) =>
        match lz4_block_decompress compressedPayload originalSize with
        | none => none
        | some f16payload => dequantizeF16ToF32 f16payload

/-! ## fed_avg.py — FedAvg aggregation and application (exact arithmetic) -/

/-- `values * weight` on a decoded flat vector. -/
def vecScale (w : ℚ) (v : List ℚ) : List ℚ := v.map (· * w)

/-- numpy in-place add `a += b` of 1-D arrays: elementwise for equal lengths,
scalar broadcast when `b` has a single element, error otherwise. -/
def npAddInto (a b : List ℚ) : Option (List ℚ) :=
  if b.length = a.length then some (List.zipWith (· + ·) a b)
  else if b.length = 1 then some (a.map (· + b.headD 0))
  else none

/-- `aggregate_gradients(gradients)`: sample-count-weighted average of the
decoded weight deltas.  `total_samples = 0` short-circuits to the empty map;
otherwise each blob is deserialized, its vectors scaled by
`num_samples / total_samples`, and accumulated per layer name. -/
def aggregate_gradients (gradients : List (List Nat × Nat)) :
    Option (List (List Nat × List ℚ)) :=
  let total_samples := (gradients.map Prod.snd).sum
  if total_samples = 0 then some []
  else
    gradients.foldlM (fun accumulated g =>
      match runDeserialize f32ToRat g.1 with
      | none => none
      | some (deltas, _) =>
          let weight : ℚ := (g.2 : ℚ) / (total_samples : ℚ)
          deltas.foldlM (fun acc p =>
            match acc.lookup p.1 with
            | some cur =>
                match npAddInto cur (vecScale weight p.2) with
                | some nv => some (dictInsert acc p.1 nv)
                | none => none
            | none => some (dictInsert acc p.1 (vecScale weight p.2)))
            accumulated) []

/-- `apply_gradients(weights, grads, learning_rate)`:
`new = old + delta.reshape(old.shape)` per layer present in `grads` (reshape
requires equal element counts; numpy raises otherwise), unchanged copy per
layer absent from `grads`.  The `learning_rate` parameter is kept for API
compatibility and is not used. -/
def apply_gradients (weights grads : List (List Nat × List ℚ))
    (learning_rate : ℚ := 1 / 100) : Option (List (List Nat × List ℚ)) :=
  weights.mapM (fun p =>
    match grads.lookup p.1 with
    | some g =>
        if g.length = p.2.length then some (p.1, List.zipWith (· + ·) p.2 g)
        else none
    | none => some (p.1, p.2))

/-! ## device_scheduler.py — eligibility, scoring, selection -/

/-- A JSON metric value as used in the device metrics map: a boolean (the
`is_low_power_mode` flag) or a number. -/
inductive MVal : Type
  | b (v : Bool)
  | q (v : ℚ)
deriving DecidableEq

/-- Python truthiness of a metric value (`if is_lpm`). -/
def MVal.truthy : MVal → Bool
  | .b v => v
  | .q v => v ≠ 0

/-- Python numeric coercion of a metric value for comparisons
(`True` compares as 1, `False` as 0). -/
def MVal.toQ : MVal → ℚ
  | .b v => if v then 1 else 0
  | .q v => v

/-- The device-row attributes the scheduler reads (`orchestrator/db/models.py`
`Device`; nullable columns are `Option`).  `devId` stands for the row
identity so that distinct devices with equal telemetry stay distinct. -/
structure SchedDevice : Type where
  devId : Nat
  battery_level : Option ℚ
  battery_state : Option String
  metrics : Option (List (String × MVal))
  neural_engine_cores : Option Nat
  memory_bytes : Option Nat
deriving DecidableEq

/-- `SchedulerConfig` (weights as a string-keyed map, as in the source). -/
structure SchedulerConfig : Type where
  enabled : Bool := false
  target_devices : Option Nat := none
  min_battery : ℚ := 20 / 100
  allow_low_power_mode : Bool := false
  max_thermal_pressure : ℚ := 70 / 100
  max_cpu_usage : ℚ := 90 / 100
  weights : List (String × ℚ) :=
    [("battery", 35 / 100), ("thermal", 25 / 100), ("cpu_load", 20 / 100),
     ("memory_load", 10 / 100), ("hardware", 10 / 100)]
deriving DecidableEq

/-- `_get_metric(device, key)`: `(device.metrics or {}).get(key)`. -/
def _get_metric (device : SchedDevice) (key : String) : Option MVal :=
  (device.metrics.getD []).lookup key

/-- `_is_eligible(device, cfg)`: sequential drop conditions; a missing metric
passes its predicate. -/
def _is_eligible (device : SchedDevice) (cfg : SchedulerConfig) : Bool :=
  if (match device.battery_level with
      | some battery => decide (battery < cfg.min_battery)
      | none => false) then false
  else if (match _get_metric device "is_low_power_mode" with
           | some v => v.truthy
           | none => false) && ! cfg.allow_low_power_mode then false
  else if (match _get_metric device "thermal_pressure" with
           | some thermal => decide (thermal.toQ > cfg.max_thermal_pressure)
           | none => false) then false
  else if (match _get_metric device "cpu_usage" with
           | some cpu => decide (cpu.toQ > cfg.max_cpu_usage)
           | none => false) then false
  else true

/-- `_score_device(device, cfg, pool_max_ne, pool_max_mem)`. -/
def _score_device (device : SchedDevice) (cfg : SchedulerConfig)
    (pool_max_ne pool_max_mem : Nat) : ℚ :=
  let w := cfg.weights
  let battery_score : ℚ :=
    match device.battery_level with
    | some battery =>
        let bonus : ℚ :=
          if device.battery_state = some "charging" ∨
             device.battery_state = some "full" then 15 / 100 else 0
        min (battery + bonus) 1
    | none => 1 / 2
  let thermal_score : ℚ :=
    match _get_metric device "thermal_pressure" with
    | some thermal => 1 - thermal.toQ
    | none => 1 / 2
  let cpu_score : ℚ :=
    match _get_metric device "cpu_usage" with
    | some cpu => 1 - cpu.toQ
    | none => 1 / 2
  let mem_score : ℚ :=
    match _get_metric device "memory_usage" with
    | some mem => 1 - mem.toQ
    | none => 1 / 2
  let ne_cores := device.neural_engine_cores.getD 0
  let mem_bytes := device.memory_bytes.getD 0
  let ne_norm : ℚ :=
    if pool_max_ne > 0 then (ne_cores : ℚ) / (pool_max_ne : ℚ) else 1 / 2
  let mem_norm : ℚ :=
    if pool_max_mem > 0 then (mem_bytes : ℚ) / (pool_max_mem : ℚ) else 1 / 2
  let hw_score := (ne_norm + mem_norm) / 2
  (w.lookup "battery").getD 0 * battery_score +
    (w.lookup "thermal").getD 0 * thermal_score +
    (w.lookup "cpu_load").getD 0 * cpu_score +
    (w.lookup "memory_load").getD 0 * mem_score +
    (w.lookup "hardware").getD 0 * hw_score

/-- `select_devices(devices, cfg, min_devices)`: `none` models the Python
`None` "insufficient pool" signal.  With the scheduler disabled the input
list is returned verbatim; otherwise the eligible devices are scored (with
pool maxima for hardware normalisation), sorted stably by descending score,
and truncated to `max(target_devices, min_devices)` when a target is set. -/
def select_devices (devices : List SchedDevice) (cfg : SchedulerConfig)
    (min_devices : Nat) : Option (List SchedDevice) :=
  if ! cfg.enabled then some devices
  else
    let eligible := devices.filter (fun d => _is_eligible d cfg)
    if eligible.length < min_devices then none
    else
      let pool_max_ne :=
        (eligible.map (fun d => d.neural_engine_cores.getD 0)).foldr max 0
      let pool_max_mem :=
        (eligible.map (fun d => d.memory_bytes.getD 0)).foldr max 0
      let scored := eligible.mergeSort (fun a b =>
        decide (_score_device b cfg pool_max_ne pool_max_mem ≤
                _score_device a cfg pool_max_ne pool_max_mem))
      match cfg.target_devices with
      | none => some scored
      | some target => some (scored.take (max target min_devices))

/-! ## heartbeat_monitor.py — heartbeat processing (device-row effect) -/

/-- The device-row fields `process_heartbeat` touches. -/
structure DeviceRow : Type where
  status : String
  battery_level : Option ℚ
  battery_state : Option String
  metrics : List (String × MVal)
deriving DecidableEq

/-- The device-row effect of `HeartbeatMonitor.process_heartbeat`: build
`update_kwargs = {"status": "online"}`, add battery fields when given, apply
the update, then replace the metrics map when the heartbeat carried a
non-empty one.  (The Redis liveness-key write carries only a timestamp and is
not part of the row model.) -/
def process_heartbeat (device : DeviceRow) (metrics : List (String × MVal))
    (battery_level : Option ℚ := none) (battery_state : Option String := none) :
    DeviceRow :=
  let updated : DeviceRow :=
    { device with
      status := "online"
      battery_level :=
        match battery_level with
        | some v => some v
        | none => device.battery_level
      battery_state :=
        match battery_state with
        | some v => some v
        | none => device.battery_state }
  if metrics ≠ [] then { updated with metrics := metrics } else updated

/-! ## training_coordinator.py — Redis cleanup and the round loop -/

/-- The shared Redis keyspace as a string-keyed map. -/
abbrev Store := List (String × String)

/-- `redis.delete(k)`. -/
def Store.del (st : Store) (k : String) : Store :=
  st.filter (fun p => p.1 ≠ k)

/-- The `scan(match="gradients:<model_id>:*")` + delete loop: remove every
key starting with the per-round gradient bucket pattern of this model (the
glob `gradients:<model_id>:*` is prefix matching, here on character
sequences). -/
def Store.delGradients (st : Store) (modelId : String) : Store :=
  st.filter (fun p => ! ("gradients:" ++ modelId ++ ":").data.isPrefixOf p.1.data)

/-- `TrainingCoordinator._cleanup_redis_keys(job_id, model_id, keep_model)`:
delete the stop flag, then (unless `keep_model`) the model blob and its
metadata, then all gradient buckets of the model. -/
def cleanup_redis_keys (st : Store) (jobId : String)
    (modelId : Option String := none) (keepModel : Bool := false) : Store :=
  let effectiveModelId := modelId.getD jobId
  let st := st.del ("training:" ++ jobId ++ ":stop")
  let st :=
    if keepModel then st
    else (st.del ("model:" ++ effectiveModelId ++ ":global")).del
      ("model:" ++ effectiveModelId ++ ":meta")
  st.delGradients effectiveModelId

/-- The stop-flag branch at the round boundary of `_run_training_loop`
(lines 181–188): persist job status `stopped` and run the Redis cleanup with
the default `keep_model = False`. -/
def stopAtBoundary (st : Store) (jobId : String) (modelId : Option String) :
    String × Store :=
  ("stopped", cleanup_redis_keys st jobId modelId false)

/-- The job-row columns the round loop writes: status, checkpoint round, and
the round numbers of the persisted `round_metrics.rounds` records. -/
structure JobDb : Type where
  status : String
  current_round : Nat
  rounds : List Nat
deriving DecidableEq

/-- What the environment presents to one iteration of the round loop. -/
structure RoundEnv : Type where
  /-- stop flag read at the round boundary -/
  stopAtBoundary : Bool
  /-- stop flag read during the device wait -/
  stopInWait : Bool
  /-- the scheduler returns a selection within the 30 wait attempts -/
  devicesFound : Bool
  /-- `true` when the round persists a metrics record (a completed round or a
  skipped-after-retries round, both of which append `{round: r, ...}`);
  `false` on the all-submissions-invalid path, which appends nothing -/
  persistsRecord : Bool

/-- The job-row states observable at the suspension points of
`_run_training_loop`, round by round: each element is the row after one of
the loop's durable writes (between writes the row is unchanged, so these are
exactly the states a concurrent reader or a crash can observe).  Per round:
the stop check at the boundary (exit `stopped`), the `current_round := r`
checkpoint write, the device wait (exit `stopped` on a stop flag, exit
`failed` on exhaustion), then dispatch/collect, appending a metrics record
for round `r` unless every submission was invalid; after the last round the
status becomes `completed`.  `fuel` bounds the recursion and is taken larger
than the number of remaining rounds. -/
def loopTrace (env : Nat → RoundEnv) (numRounds : Nat) :
    Nat → Nat → JobDb → List JobDb
  | 0, _, _ => []
  | fuel + 1, r, db =>
      if numRounds < r then [{ db with status := "completed" }]
      else
        let e := env r
        if e.stopAtBoundary then [{ db with status := "stopped" }]
        else
          let d1 : JobDb := { db with current_round := r }
          d1 ::
            (if e.stopInWait then [{ d1 with status := "stopped" }]
             else if ! e.devicesFound then [{ d1 with status := "failed" }]
             else if e.persistsRecord then
               let d2 : JobDb := { d1 with rounds := d1.rounds ++ [r] }
               d2 :: loopTrace env numRounds fuel (r + 1) d2
             else loopTrace env numRounds fuel (r + 1) d1)

/-- The device-wait loop of `_run_training_loop` (attempts 0–29): each
attempt re-reads the stop flag and the online devices, applies the scheduler
and breaks on a selection; the for-else exhaustion path fails the job. -/
inductive WaitResult : Type
  | stopped
  | proceed (devices : List SchedDevice) (attempt : Nat)
  | exhausted
deriving DecidableEq

def deviceWaitAux (stopAt : Nat → Bool) (onlineAt : Nat → List SchedDevice)
    (cfg : SchedulerConfig) (minDevices : Nat) :
    Nat → Nat → WaitResult
  | 0, _ => .exhausted
  | fuel + 1, attempt =>
      if stopAt attempt then .stopped
      else
        match select_devices (onlineAt attempt) cfg minDevices with
        | some ds => .proceed ds attempt
        | none => deviceWaitAux stopAt onlineAt cfg minDevices fuel (attempt + 1)

/-- The device wait with its `max_device_wait_retries = 30`. -/
def deviceWaitLoop (stopAt : Nat → Bool) (onlineAt : Nat → List SchedDevice)
    (cfg : SchedulerConfig) (minDevices : Nat) : WaitResult :=
  deviceWaitAux stopAt onlineAt cfg minDevices 30 0

/-- The checkpoint coupling asserted by the spec: the persisted
`current_round` equals the highest round with a persisted metrics record. -/
def checkpointInv (db : JobDb) : Bool :=
  db.current_round == db.rounds.foldr max 0

/-! ## Parser extension lemmas (unconsumed suffixes are ignored) -/

theorem readU32_append {data e rest : List Nat} {n : Nat}
    (h : readU32 data = some (n, rest)) :
    readU32 (data ++ e) = some (n, rest ++ e) := by
  unfold readU32 at h ⊢
  split at h
  · next hle =>
    rw [if_pos (by simpa using Nat.le_add_right_of_le hle)]
    rw [List.take_append_of_le_length hle, List.drop_append_of_le_length hle]
    simpa using h
  · exact absurd h (by simp)

theorem splitWords_append {w : Nat} {e : List Nat} :
    ∀ {c : Nat} {data ws rest : List Nat},
      splitWords w c data = some (ws, rest) →
      splitWords w c (data ++ e) = some (ws, rest ++ e) := by
  intro c
  induction c with
  | zero => intro data ws rest h; simp [splitWords] at h ⊢; simp [h.1, h.2]
  | succ c ih =>
    intro data ws rest h
    unfold splitWords at h ⊢
    split at h
    · next hle =>
      rw [if_pos (by simpa using Nat.le_add_right_of_le hle)]
      cases hrec : splitWords w c (data.drop w) with
      | none => rw [hrec] at h; exact absurd h (by simp)
      | some p =>
        rw [hrec] at h
        obtain ⟨ws', rest'⟩ := p
        rw [List.drop_append_of_le_length hle, ih hrec,
          List.take_append_of_le_length hle]
        simpa using h
    · exact absurd h (by simp)

theorem parseLayers_append {α : Type} {f : Nat → α} {e : List Nat} :
    ∀ {c : Nat} {data rest : List Nat} {acc r : List (List Nat × List α)},
      parseLayers f c data acc = some (r, rest) →
      parseLayers f c (data ++ e) acc = some (r, rest ++ e) := by
  intro c
  induction c with
  | zero => intro data rest acc r h; simp [parseLayers] at h ⊢; simp [h.1, h.2]
  | succ c ih =>
    intro data rest acc r h
    unfold parseLayers at h ⊢
    cases h1 : readU32 data with
    | none => rw [h1] at h; exact absurd h (by simp)
    | some p1 =>
      obtain ⟨nameLen, d1⟩ := p1
      rw [h1] at h
      rw [readU32_append h1]
      simp only at h ⊢
      cases h2 : readU32 (d1.drop nameLen) with
      | none => rw [h2] at h; exact absurd h (by simp)
      | some p2 =>
        obtain ⟨elemCount, d3⟩ := p2
        rw [h2] at h
        -- a successful second header read bounds the name slice
        have hlen : nameLen ≤ d1.length := by
          unfold readU32 at h2
          split at h2
          · next hle => rw [List.length_drop] at hle; omega
          · exact absurd h2 (by simp)
        rw [List.drop_append_of_le_length hlen, readU32_append h2,
          List.take_append_of_le_length hlen]
        simp only at h ⊢
        cases h3 : splitWords 4 elemCount d3 with
        | none => rw [h3] at h; exact absurd h (by simp)
        | some p3 =>
          obtain ⟨ws, d4⟩ := p3
          rw [h3] at h
          rw [splitWords_append h3]
          exact ih h

/-- `mapM` over `Option` succeeds pointwise: when every element maps to
`some`, the result is `some` of the pointwise images. -/
theorem mapM_option_eq_map {α β : Type} (f : α → Option β) (g : α → β) :
    ∀ l : List α, (∀ a ∈ l, f a = some (g a)) → l.mapM f = some (l.map g) := by
  intro l
  induction l with
  | nil => intro _; rfl
  | cons a as ih =>
    intro h
    rw [List.mapM_cons, h a (by simp), ih (fun b hb => h b (by simp [hb]))]
    rfl

/-! ## Encoding lemmas for the serializer round trip -/

/-- The byte string `serializeLayer` produces when its guards pass. -/
def layerBytes (name : List Nat) (values : List Nat) : List Nat :=
  toLE4 name.length ++ name ++ toLE4 values.length ++ (values.map toLE4).flatten

theorem serializeLayer_eq_layerBytes {name values : List Nat}
    (hn : name.length < 2 ^ 32) (hv : values.length < 2 ^ 32) :
    serializeLayer name values = some (layerBytes name values) := by
  unfold serializeLayer layerBytes
  rw [if_pos ⟨hn, hv⟩]

@[simp] theorem length_toLE4 (n : Nat) : (toLE4 n).length = 4 := rfl

theorem readU32_toLE4 {n : Nat} (h : n < 2 ^ 32) (rest : List Nat) :
    readU32 (toLE4 n ++ rest) = some (n, rest) := by
  unfold readU32
  rw [if_pos (by simp [toLE4])]
  rw [List.take_append_of_le_length (by simp [toLE4]),
    List.drop_append_of_le_length (by simp [toLE4])]
  unfold toLE4 wordLE
  simp only [List.take, List.foldr, List.drop, List.nil_append,
    Option.some.injEq, Prod.mk.injEq]
  refine ⟨by omega, by simp⟩

theorem splitWords_encoded {vs : List Nat} (h : ∀ v ∈ vs, v < 2 ^ 32) :
    ∀ rest : List Nat,
      splitWords 4 vs.length ((vs.map toLE4).flatten ++ rest) = some (vs, rest) := by
  induction vs with
  | nil => intro rest; simp [splitWords]
  | cons v vs ih =>
    intro rest
    have hv : v < 2 ^ 32 := h v (by simp)
    show splitWords 4 (vs.length + 1)
        ((toLE4 v ++ (vs.map toLE4).flatten) ++ rest) = _
    rw [List.append_assoc]
    unfold splitWords
    rw [if_pos (by simp [toLE4])]
    rw [List.drop_append_of_le_length (by simp [toLE4]),
      List.take_append_of_le_length (by simp [toLE4])]
    have hd0 : List.drop 4 (toLE4 v) = [] := rfl
    rw [hd0, List.nil_append, ih (fun u hu => h u (by simp [hu])) rest]
    have hw : wordLE (List.take 4 (toLE4 v)) = v := by
      unfold toLE4 wordLE
      simp only [List.take, List.foldr]
      omega
    simp [hw]

theorem take_len_append {α : Type} (l r : List α) : (l ++ r).take l.length = l := by
  rw [List.take_append_of_le_length (le_refl _), List.take_length]

theorem drop_len_append {α : Type} (l r : List α) : (l ++ r).drop l.length = r := by
  rw [List.drop_append_of_le_length (le_refl _), List.drop_length, List.nil_append]

theorem parseLayers_encoded :
    ∀ (ls : List (List Nat × List Nat)) (rest : List Nat)
      (acc : List (List Nat × List Nat)),
      (∀ p ∈ ls, p.1.length < 2 ^ 32 ∧ p.2.length < 2 ^ 32 ∧
        ∀ v ∈ p.2, v < 2 ^ 32) →
      parseLayers id ls.length
          ((ls.map (fun p => layerBytes p.1 p.2)).flatten ++ rest) acc =
        some (ls.foldl (fun a p => dictInsert a p.1 p.2) acc, rest) := by
  intro ls
  induction ls with
  | nil => intro rest acc _; simp [parseLayers]
  | cons p ls ih =>
    intro rest acc hb
    obtain ⟨hn, hv, hvs⟩ := hb p (by simp)
    show parseLayers id (ls.length + 1)
        ((layerBytes p.1 p.2 ++ (ls.map (fun p => layerBytes p.1 p.2)).flatten)
          ++ rest) acc = _
    unfold layerBytes parseLayers
    simp only [List.append_assoc]
    rw [readU32_toLE4 hn]
    simp only [take_len_append, drop_len_append]
    rw [readU32_toLE4 hv]
    simp only
    rw [splitWords_encoded hvs]
    simp only [List.map_id]
    have ih2 := ih rest (dictInsert acc p.1 p.2)
      (fun q hq => hb q (by simp [hq]))
    simp only [layerBytes, List.append_assoc] at ih2
    rw [List.foldl_cons]
    exact ih2

/-- `dictInsert` on an absent key appends. -/
theorem dictInsert_of_not_mem_keys {α : Type} {m : List (List Nat × α)}
    {k : List Nat} (h : ∀ p ∈ m, p.1 ≠ k) (v : α) :
    dictInsert m k v = m ++ [(k, v)] := by
  induction m with
  | nil => rfl
  | cons q m ih =>
    unfold dictInsert
    rw [if_neg (h q (by simp))]
    rw [ih (fun p hp => h p (by simp [hp]))]
    rfl

/-- Folding `dictInsert` over pairs with fresh, pairwise-distinct keys simply
appends the pairs. -/
theorem foldl_dictInsert_fresh {α : Type} :
    ∀ (ps : List (List Nat × α)) (acc : List (List Nat × α)),
      (ps.map Prod.fst).Nodup →
      (∀ p ∈ ps, ∀ q ∈ acc, q.1 ≠ p.1) →
      ps.foldl (fun a p => dictInsert a p.1 p.2) acc = acc ++ ps := by
  intro ps
  induction ps with
  | nil => intro acc _ _; simp
  | cons p ps ih =>
    intro acc hnd hfresh
    simp only [List.foldl]
    rw [dictInsert_of_not_mem_keys (fun q hq => hfresh p (by simp) q hq) p.2]
    have hnd2 : (ps.map Prod.fst).Nodup :=
      (List.nodup_cons.mp (by simpa using hnd)).2
    have hk : p.1 ∉ ps.map Prod.fst :=
      (List.nodup_cons.mp (by simpa using hnd)).1
    have hfresh2 : ∀ q ∈ ps, ∀ r ∈ acc ++ [(p.1, p.2)], r.1 ≠ q.1 := by
      intro q hq r hr
      rcases List.mem_append.mp hr with hr | hr
      · exact hfresh q (by simp [hq]) r hr
      · have hrp : r = (p.1, p.2) := by simpa using hr
        subst hrp
        intro hcontra
        exact hk (hcontra ▸ List.mem_map_of_mem Prod.fst hq)
    rw [ih (acc ++ [(p.1, p.2)]) hnd2 hfresh2]
    simp

/-- Looking up in a key-value list built by tagging each key with `f`. -/
theorem lookup_map_tag {α : Type} (f : List Nat → α) :
    ∀ (ks : List (List Nat)) (k : List Nat),
      (ks.map (fun j => (j, f j))).lookup k =
        if k ∈ ks then some (f k) else none := by
  intro ks
  induction ks with
  | nil => intro k; rfl
  | cons j ks ih =>
    intro k
    simp only [List.map, List.lookup]
    cases hbeq : (k == j) with
    | true =>
      have : k = j := by simpa using hbeq
      subst this
      simp
    | false =>
      have hne : k ≠ j := by simpa using hbeq
      rw [ih k]
      by_cases hk : k ∈ ks <;> simp [hk, hne]

/-- A successful lookup exhibits a member pair. -/
theorem lookup_mem {α : Type} :
    ∀ (m : List (List Nat × α)) (k : List Nat) (v : α),
      m.lookup k = some v → (k, v) ∈ m := by
  intro m
  induction m with
  | nil => intro k v h; exact absurd h (by simp [List.lookup])
  | cons p m ih =>
    intro k v h
    simp only [List.lookup] at h
    cases hbeq : (k == p.1) with
    | true =>
      rw [hbeq] at h
      have hk : k = p.1 := by simpa using hbeq
      have hv : v = p.2 := by simpa using h.symm
      subst hk; subst hv
      simp
    | false =>
      rw [hbeq] at h
      exact List.mem_cons_of_mem p (ih k v h)

/-! ## Vector and dictionary lemmas for the aggregation proof -/

/-- The weighted sum `Σᵢ wᵢ · vᵢ` of optional vectors of common length `ℓ`,
with a missing vector contributing zero — the right-hand side of the spec's
aggregation formula. -/
def weightedVecSum (ℓ : Nat) (terms : List (ℚ × Option (List ℚ))) : List ℚ :=
  terms.foldr
    (fun t acc =>
      List.zipWith (· + ·) (vecScale t.1 (t.2.getD (List.replicate ℓ 0))) acc)
    (List.replicate ℓ 0)

theorem vecScale_length (w : ℚ) (v : List ℚ) : (vecScale w v).length = v.length := by
  simp [vecScale]

theorem vecScale_replicate_zero (w : ℚ) (ℓ : Nat) :
    vecScale w (List.replicate ℓ 0) = List.replicate ℓ 0 := by
  simp [vecScale, List.map_replicate]

theorem zipWith_add_replicate_left :
    ∀ v : List ℚ, List.zipWith (· + ·) (List.replicate v.length 0) v = v := by
  intro v
  induction v with
  | nil => rfl
  | cons a v ih => simp [List.replicate, ih]

theorem zipWith_add_replicate_right :
    ∀ v : List ℚ, List.zipWith (· + ·) v (List.replicate v.length 0) = v := by
  intro v
  induction v with
  | nil => rfl
  | cons a v ih => simp [List.replicate, ih]

theorem zipWith_add_assoc :
    ∀ a b c : List ℚ,
      List.zipWith (· + ·) (List.zipWith (· + ·) a b) c =
        List.zipWith (· + ·) a (List.zipWith (· + ·) b c) := by
  intro a
  induction a with
  | nil => intro b c; rfl
  | cons x a ih =>
    intro b c
    cases b with
    | nil => rfl
    | cons y b =>
      cases c with
      | nil => rfl
      | cons z c => simp [ih, add_assoc]

theorem weightedVecSum_length {ℓ : Nat} :
    ∀ terms : List (ℚ × Option (List ℚ)),
      (∀ t ∈ terms, ∀ v, t.2 = some v → v.length = ℓ) →
      (weightedVecSum ℓ terms).length = ℓ := by
  intro terms
  induction terms with
  | nil => intro _; simp [weightedVecSum]
  | cons t ts ih =>
    intro h
    show (List.zipWith (· + ·) (vecScale t.1 (t.2.getD (List.replicate ℓ 0)))
      (weightedVecSum ℓ ts)).length = ℓ
    rw [List.length_zipWith, vecScale_length,
      ih (fun u hu v hv => h u (by simp [hu]) v hv)]
    cases ht : t.2 with
    | none => simp
    | some v => simp [h t (by simp) v ht]

/-- `Option.getD`-free head unfolding of `weightedVecSum`. -/
theorem weightedVecSum_cons (ℓ : Nat) (t : ℚ × Option (List ℚ))
    (ts : List (ℚ × Option (List ℚ))) :
    weightedVecSum ℓ (t :: ts) =
      List.zipWith (· + ·) (vecScale t.1 (t.2.getD (List.replicate ℓ 0)))
        (weightedVecSum ℓ ts) := rfl

theorem dictInsert_lookup {α : Type} (k : List Nat) (v : α) :
    ∀ (m : List (List Nat × α)) (j : List Nat),
      (dictInsert m k v).lookup j = if j = k then some v else m.lookup j := by
  intro m
  induction m with
  | nil =>
    intro j
    by_cases hj : j = k
    · subst hj; simp [dictInsert, List.lookup]
    · simp [dictInsert, List.lookup, hj, beq_eq_false_iff_ne.mpr hj]
  | cons p m ih =>
    intro j
    unfold dictInsert
    by_cases hpk : p.1 = k
    · subst hpk
      by_cases hj : j = p.1
      · subst hj; simp [List.lookup]
      · simp [List.lookup, hj, beq_eq_false_iff_ne.mpr hj]
    · rw [if_neg hpk]
      by_cases hj : j = p.1
      · subst hj
        have : ¬ p.1 = k := hpk
        simp [List.lookup, if_neg this]
      · simp [List.lookup, beq_eq_false_iff_ne.mpr hj, ih j]

theorem lookup_eq_none_of_not_mem_keys {α : Type} {m : List (List Nat × α)}
    {k : List Nat} (h : k ∉ m.map Prod.fst) : m.lookup k = none := by
  cases hk : m.lookup k with
  | none => rfl
  | some v => exact absurd (List.mem_map_of_mem Prod.fst (lookup_mem m k v hk)) h

theorem mem_keys_dictInsert {α : Type} {j k : List Nat} {v : α} :
    ∀ m : List (List Nat × α),
      j ∈ (dictInsert m k v).map Prod.fst → j ∈ m.map Prod.fst ∨ j = k := by
  intro m
  induction m with
  | nil =>
    intro h
    simp [dictInsert] at h
    exact Or.inr h
  | cons q m ih =>
    intro h
    unfold dictInsert at h
    by_cases hqk : q.1 = k
    · rw [if_pos hqk] at h
      simp only [List.map, List.mem_cons] at h
      rcases h with h | h
      · subst h; exact Or.inl (List.mem_cons_self _ _)
      · exact Or.inl (List.mem_cons_of_mem _ h)
    · rw [if_neg hqk] at h
      simp only [List.map, List.mem_cons] at h
      rcases h with h | h
      · subst h; exact Or.inl (List.mem_cons_self _ _)
      · rcases ih h with h' | h'
        · exact Or.inl (List.mem_cons_of_mem _ h')
        · exact Or.inr h'

theorem dictInsert_keys_nodup {α : Type} {k : List Nat} {v : α} :
    ∀ m : List (List Nat × α), (m.map Prod.fst).Nodup →
      ((dictInsert m k v).map Prod.fst).Nodup := by
  intro m
  induction m with
  | nil => intro _; simp [dictInsert]
  | cons p m ih =>
    intro h
    have h' := List.nodup_cons.mp (show (p.1 :: m.map Prod.fst).Nodup from h)
    unfold dictInsert
    by_cases hpk : p.1 = k
    · rw [if_pos hpk]; exact h
    · rw [if_neg hpk]
      show (p.1 :: (dictInsert m k v).map Prod.fst).Nodup
      refine List.nodup_cons.mpr ⟨?_, ih h'.2⟩
      intro hcontra
      rcases mem_keys_dictInsert m hcontra with hc | hc
      · exact h'.1 hc
      · exact hpk hc

theorem parseLayers_keys_nodup {α : Type} {f : Nat → α} :
    ∀ {c : Nat} {data rest : List Nat} {acc r : List (List Nat × List α)},
      parseLayers f c data acc = some (r, rest) →
      (acc.map Prod.fst).Nodup → (r.map Prod.fst).Nodup := by
  intro c
  induction c with
  | zero =>
    intro data rest acc r h hacc
    simp [parseLayers] at h
    rw [← h.1]
    exact hacc
  | succ c ih =>
    intro data rest acc r h hacc
    unfold parseLayers at h
    cases h1 : readU32 data with
    | none => rw [h1] at h; exact absurd h (by simp)
    | some p1 =>
      obtain ⟨nameLen, d1⟩ := p1
      rw [h1] at h
      simp only at h
      cases h2 : readU32 (d1.drop nameLen) with
      | none => rw [h2] at h; exact absurd h (by simp)
      | some p2 =>
        obtain ⟨elemCount, d3⟩ := p2
        rw [h2] at h
        simp only at h
        cases h3 : splitWords 4 elemCount d3 with
        | none => rw [h3] at h; exact absurd h (by simp)
        | some p3 =>
          obtain ⟨ws, d4⟩ := p3
          rw [h3] at h
          exact ih h (dictInsert_keys_nodup acc hacc)

theorem runDeserialize_keys_nodup {α : Type} {f : Nat → α} {data : List Nat}
    {r : List (List Nat × List α)} {rest : List Nat}
    (h : runDeserialize f data = some (r, rest)) : (r.map Prod.fst).Nodup := by
  unfold runDeserialize at h
  cases h1 : readU32 data with
  | none => rw [h1] at h; exact absurd h (by simp)
  | some p =>
    obtain ⟨layerCount, d1⟩ := p
    rw [h1] at h
    exact parseLayers_keys_nodup h (by simp)

/-- Merging one decoded delta map into the accumulator (the inner loop of
`aggregate_gradients`): with pairwise-distinct layer names and consistent
vector lengths the fold succeeds, and the resulting lookup adds
`w · (map value)` into the accumulated entry (creating it when absent). -/
theorem aggregate_inner_merge (w : ℚ) (ℓ : List Nat → Nat) :
    ∀ (m acc : List (List Nat × List ℚ)),
      (m.map Prod.fst).Nodup →
      (∀ k v, m.lookup k = some v → v.length = ℓ k) →
      (∀ k v, acc.lookup k = some v → v.length = ℓ k) →
      ∃ acc',
        m.foldlM (fun acc p =>
          match acc.lookup p.1 with
          | some cur =>
              match npAddInto cur (vecScale w p.2) with
              | some nv => some (dictInsert acc p.1 nv)
              | none => none
          | none => some (dictInsert acc p.1 (vecScale w p.2))) acc = some acc' ∧
        (∀ k, acc'.lookup k =
          match acc.lookup k, m.lookup k with
          | none, none => none
          | some v, none => some v
          | none, some u => some (vecScale w u)
          | some v, some u => some (List.zipWith (· + ·) v (vecScale w u))) ∧
        (∀ k v, acc'.lookup k = some v → v.length = ℓ k) := by
  intro m
  induction m with
  | nil =>
    intro acc _ _ hacc
    refine ⟨acc, by simp, fun k => ?_, hacc⟩
    cases acc.lookup k <;> rfl
  | cons p m ih =>
    intro acc hnd hm hacc
    have hndtail := List.nodup_cons.mp
      (show (p.1 :: m.map Prod.fst).Nodup from hnd)
    have hheadv : (p :: m).lookup p.1 = some p.2 := by
      simp [List.lookup]
    have hlenu : p.2.length = ℓ p.1 := hm p.1 p.2 hheadv
    have hmtail_none : m.lookup p.1 = none :=
      lookup_eq_none_of_not_mem_keys hndtail.1
    have hmtail : ∀ k v, m.lookup k = some v → v.length = ℓ k := by
      intro k v hk
      by_cases hkp : k = p.1
      · subst hkp
        rw [hmtail_none] at hk
        exact absurd hk (by simp)
      · refine hm k v ?_
        simpa [List.lookup, beq_eq_false_iff_ne.mpr hkp] using hk
    -- the head step produces the updated accumulator newv at key p.1
    cases hacck : acc.lookup p.1 with
    | none =>
      have hacc1 : ∀ k v,
          (dictInsert acc p.1 (vecScale w p.2)).lookup k = some v →
            v.length = ℓ k := by
        intro k v hk
        rw [dictInsert_lookup] at hk
        by_cases hkp : k = p.1
        · subst hkp
          rw [if_pos rfl] at hk
          have : v = vecScale w p.2 := by simpa using hk.symm
          subst this
          rw [vecScale_length]
          exact hlenu
        · rw [if_neg hkp] at hk
          exact hacc k v hk
      obtain ⟨A, hfold, hchar, hinv⟩ :=
        ih (dictInsert acc p.1 (vecScale w p.2)) hndtail.2 hmtail hacc1
      refine ⟨A, ?_, ?_, hinv⟩
      · rw [List.foldlM_cons]
        simp only [hacck]
        exact hfold
      · intro k
        rw [hchar k]
        by_cases hkp : k = p.1
        · subst hkp
          rw [dictInsert_lookup, if_pos rfl, hmtail_none, hacck, hheadv]
        · rw [dictInsert_lookup, if_neg hkp]
          have : (p :: m).lookup k = m.lookup k := by
            simp [List.lookup, beq_eq_false_iff_ne.mpr hkp]
          rw [this]
    | some cur =>
      have hlencur : cur.length = ℓ p.1 := hacc p.1 cur hacck
      have hadd : npAddInto cur (vecScale w p.2) =
          some (List.zipWith (· + ·) cur (vecScale w p.2)) := by
        unfold npAddInto
        rw [if_pos (by rw [vecScale_length, hlenu, hlencur])]
      have hacc1 : ∀ k v,
          (dictInsert acc p.1
            (List.zipWith (· + ·) cur (vecScale w p.2))).lookup k = some v →
            v.length = ℓ k := by
        intro k v hk
        rw [dictInsert_lookup] at hk
        by_cases hkp : k = p.1
        · subst hkp
          rw [if_pos rfl] at hk
          have : v = List.zipWith (· + ·) cur (vecScale w p.2) := by
            simpa using hk.symm
          subst this
          rw [List.length_zipWith, vecScale_length, hlenu, hlencur]
          simp
        · rw [if_neg hkp] at hk
          exact hacc k v hk
      obtain ⟨A, hfold, hchar, hinv⟩ :=
        ih (dictInsert acc p.1 (List.zipWith (· + ·) cur (vecScale w p.2)))
          hndtail.2 hmtail hacc1
      refine ⟨A, ?_, ?_, hinv⟩
      · rw [List.foldlM_cons]
        simp only [hacck, hadd]
        exact hfold
      · intro k
        rw [hchar k]
        by_cases hkp : k = p.1
        · subst hkp
          rw [dictInsert_lookup, if_pos rfl, hmtail_none, hacck, hheadv]
        · rw [dictInsert_lookup, if_neg hkp]
          have : (p :: m).lookup k = m.lookup k := by
            simp [List.lookup, beq_eq_false_iff_ne.mpr hkp]
          rw [this]

/-- The outer loop of `aggregate_gradients` over a suffix of the input list
(`T` is the total sample count of the full list): decoding each blob and
merging it weighted by `sᵢ/T` yields, per layer name, the accumulated entry
plus the weighted sum of the decoded vectors (missing layers contributing
zero). -/
theorem aggregate_outer (T : Nat) (ℓ : List Nat → Nat) :
    ∀ (gs : List (List Nat × Nat)) (ms : List (List (List Nat × List ℚ)))
      (acc : List (List Nat × List ℚ)),
      List.Forall₂ (fun g m =>
        (runDeserialize f32ToRat g.1).map Prod.fst = some m) gs ms →
      (∀ m ∈ ms, ∀ k v, m.lookup k = some v → v.length = ℓ k) →
      (∀ k v, acc.lookup k = some v → v.length = ℓ k) →
      ∃ A,
        gs.foldlM (fun accumulated g =>
          match runDeserialize f32ToRat g.1 with
          | none => none
          | some (deltas, _) =>
              deltas.foldlM (fun acc p =>
                match acc.lookup p.1 with
                | some cur =>
                    match npAddInto cur
                        (vecScale ((g.2 : ℚ) / (T : ℚ)) p.2) with
                    | some nv => some (dictInsert acc p.1 nv)
                    | none => none
                | none =>
                    some (dictInsert acc p.1
                      (vecScale ((g.2 : ℚ) / (T : ℚ)) p.2))) accumulated)
          acc = some A ∧
        (∀ k, A.lookup k =
          match acc.lookup k with
          | some v => some (List.zipWith (· + ·) v
              (weightedVecSum (ℓ k) ((gs.zip ms).map
                (fun q => ((q.1.2 : ℚ) / (T : ℚ), q.2.lookup k)))))
          | none =>
              if ∃ m ∈ ms, (m.lookup k).isSome then
                some (weightedVecSum (ℓ k) ((gs.zip ms).map
                  (fun q => ((q.1.2 : ℚ) / (T : ℚ), q.2.lookup k))))
              else none) ∧
        (∀ k v, A.lookup k = some v → v.length = ℓ k) := by
  intro gs ms acc hforall
  induction hforall generalizing acc with
  | nil =>
    intro _ hacc
    refine ⟨acc, by simp, fun k => ?_, hacc⟩
    cases hak : acc.lookup k with
    | none => simp
    | some v =>
      have hlen := hacc k v hak
      simp only [List.zip_nil_right, List.map_nil]
      show some v = some (List.zipWith (· + ·) v (List.replicate (ℓ k) 0))
      rw [← hlen, zipWith_add_replicate_right]
  | @cons g m gs ms hgm htail ih =>
    intro hms hacc
    cases hrd : runDeserialize f32ToRat g.1 with
    | none => rw [hrd] at hgm; exact absurd hgm (by simp)
    | some pr =>
      obtain ⟨m0, rest0⟩ := pr
      rw [hrd] at hgm
      have hm0 : m = m0 := by simpa using hgm.symm
      subst hm0
      have hndm : (m.map Prod.fst).Nodup := runDeserialize_keys_nodup hrd
      have hmlen : ∀ k v, m.lookup k = some v → v.length = ℓ k :=
        hms m (by simp)
      obtain ⟨acc1, hfold1, hchar1, hinv1⟩ :=
        aggregate_inner_merge ((g.2 : ℚ) / (T : ℚ)) ℓ m acc hndm hmlen hacc
      obtain ⟨A, hfold, hchar, hinv⟩ :=
        ih acc1 (fun m' hm' => hms m' (by simp [hm'])) hinv1
      refine ⟨A, ?_, ?_, hinv⟩
      · rw [List.foldlM_cons]
        simp only [hrd]
        rw [hfold1]
        exact hfold
      · intro k
        have hterm : ∀ t ∈ (gs.zip ms).map
            (fun q => ((q.1.2 : ℚ) / (T : ℚ), q.2.lookup k)),
            ∀ v, t.2 = some v → v.length = ℓ k := by
          intro t ht v hv
          obtain ⟨q, hq, hqt⟩ := List.mem_map.mp ht
          have hq2 : q.2 ∈ ms := (List.of_mem_zip hq).2
          refine hms q.2 (by simp [hq2]) k v ?_
          rw [← hv, ← hqt]
        have hlenRest : (weightedVecSum (ℓ k) ((gs.zip ms).map
            (fun q => ((q.1.2 : ℚ) / (T : ℚ), q.2.lookup k)))).length = ℓ k :=
          weightedVecSum_length _ hterm
        have hz : ∀ w : List ℚ, w.length = ℓ k →
            List.zipWith (· + ·) (List.replicate (ℓ k) (0 : ℚ)) w = w := by
          intro w hw
          rw [← hw]
          exact zipWith_add_replicate_left w
        rw [hchar k, hchar1 k]
        show _ =
          match acc.lookup k with
          | some v => some (List.zipWith (· + ·) v
              (weightedVecSum (ℓ k)
                ((((g.2 : ℚ) / (T : ℚ), m.lookup k)) ::
                  (gs.zip ms).map
                    (fun q => ((q.1.2 : ℚ) / (T : ℚ), q.2.lookup k)))))
          | none =>
              if ∃ m' ∈ m :: ms, (m'.lookup k).isSome then
                some (weightedVecSum (ℓ k)
                  ((((g.2 : ℚ) / (T : ℚ), m.lookup k)) ::
                    (gs.zip ms).map
                      (fun q => ((q.1.2 : ℚ) / (T : ℚ), q.2.lookup k))))
              else none
        rw [weightedVecSum_cons]
        cases hak : acc.lookup k with
        | some v =>
          cases hmk : m.lookup k with
          | some u =>
            simp only [Option.getD_some]
            rw [zipWith_add_assoc]
          | none =>
            simp only [Option.getD_none]
            rw [vecScale_replicate_zero, hz _ hlenRest]
        | none =>
          cases hmk : m.lookup k with
          | some u =>
            have hex : ∃ m' ∈ m :: ms, (m'.lookup k).isSome := by
              exact ⟨m, by simp, by simp [hmk]⟩
            rw [if_pos hex]
            simp only [Option.getD_some]
          | none =>
            have hiff : (∃ m' ∈ ms, (m'.lookup k).isSome) ↔
                (∃ m' ∈ m :: ms, (m'.lookup k).isSome) := by
              constructor
              · rintro ⟨m', hm', hsome⟩
                exact ⟨m', by simp [hm'], hsome⟩
              · rintro ⟨m', hm', hsome⟩
                rcases List.mem_cons.mp hm' with h | h
                · subst h
                  rw [hmk] at hsome
                  exact absurd hsome (by simp)
                · exact ⟨m', h, hsome⟩
            by_cases hex : ∃ m' ∈ ms, (m'.lookup k).isSome
            · rw [if_pos hex, if_pos (hiff.mp hex)]
              simp only [Option.getD_none]
              rw [vecScale_replicate_zero, hz _ hlenRest]
            · rw [if_neg hex, if_neg (fun h => hex (hiff.mpr h))]

/-! ## Claim theorems -/

/-- C1: the claim says a plain heartbeat never downgrades a `training` device
to `online`; `process_heartbeat` unconditionally puts `status = "online"`
into its update, so a training device is downgraded.  (The repository's own
test `test_heartbeat_does_not_override_training_status` asserts the claimed
behaviour, so this is a bug in the code.) -/
theorem C1_plain_heartbeat_downgrades_training :
    (process_heartbeat
        { status := "training", battery_level := none, battery_state := none,
          metrics := [] } []).status = "online" := rfl

/-- Filtering a store never changes the binding of a key whose entries all
satisfy the predicate. -/
theorem store_lookup_filter_true (p : String × String → Bool) (k : String) :
    ∀ st : Store, (∀ v, p (k, v) = true) → (st.filter p).lookup k = st.lookup k := by
  intro st h
  induction st with
  | nil => rfl
  | cons kv rest ih =>
    obtain ⟨k', v'⟩ := kv
    cases hbeq : (k == k') with
    | true =>
      have hk : k = k' := by simpa using hbeq
      subst hk
      simp [List.filter, h v', List.lookup, hbeq]
    | false =>
      cases hp : p (k', v') <;> simp [List.filter, hp, List.lookup, hbeq, ih]

/-- Filtering a store erases a key whose entries all fail the predicate. -/
theorem store_lookup_filter_false (p : String × String → Bool) (k : String) :
    ∀ st : Store, (∀ v, p (k, v) = false) → (st.filter p).lookup k = none := by
  intro st h
  induction st with
  | nil => rfl
  | cons kv rest ih =>
    obtain ⟨k', v'⟩ := kv
    cases hbeq : (k == k') with
    | true =>
      have hk : k = k' := by simpa using hbeq
      subst hk
      simp [List.filter, h v', List.lookup, ih]
    | false =>
      cases hp : p (k', v') <;> simp [List.filter, hp, List.lookup, hbeq, ih]

/-- `l.foldr max a = max a (l.foldr max 0)`: the initial value commutes out
of a maximum fold. -/
theorem foldr_max_init (l : List Nat) : ∀ a : Nat, l.foldr max a = max a (l.foldr max 0) := by
  induction l with
  | nil => intro a; simp
  | cons b l ih => intro a; simp only [List.foldr, ih a]; omega

/-- C2 (amended): when the round loop observes the stop flag at a round
boundary it persists status `stopped` and runs the Redis cleanup with
`keep_model = False`, deleting the stop flag, all gradient buckets of the
model, **and also** `model:<id>:global` and `model:<id>:meta`; every other
key is left unchanged. -/
theorem C2_stop_boundary_effects :
    ∀ (st : Store) (jobId modelId : String),
      (stopAtBoundary st jobId (some modelId)).1 = "stopped" ∧
      (stopAtBoundary st jobId (some modelId)).2.lookup
          ("training:" ++ jobId ++ ":stop") = none ∧
      (stopAtBoundary st jobId (some modelId)).2.lookup
          ("model:" ++ modelId ++ ":global") = none ∧
      (stopAtBoundary st jobId (some modelId)).2.lookup
          ("model:" ++ modelId ++ ":meta") = none ∧
      ∀ k : String,
        k ≠ "training:" ++ jobId ++ ":stop" →
        k ≠ "model:" ++ modelId ++ ":global" →
        k ≠ "model:" ++ modelId ++ ":meta" →
        ("gradients:" ++ modelId ++ ":").data.isPrefixOf k.data = false →
        (stopAtBoundary st jobId (some modelId)).2.lookup k = st.lookup k := by
  intro st jobId modelId
  unfold stopAtBoundary cleanup_redis_keys Store.del Store.delGradients
  simp only [Option.getD_some, if_false, Bool.false_eq_true, List.filter_filter]
  refine ⟨trivial, ?_, ?_, ?_, ?_⟩
  · exact store_lookup_filter_false _ _ st (fun v => by simp)
  · exact store_lookup_filter_false _ _ st (fun v => by simp)
  · exact store_lookup_filter_false _ _ st (fun v => by simp)
  · intro k h1 h2 h3 h4
    refine store_lookup_filter_true _ _ st (fun v => ?_)
    simp only [Bool.and_eq_true, decide_eq_true_eq, Bool.not_eq_true', ne_eq]
    exact ⟨by simpa using h4, h3, h2, h1⟩

/-- C2 witness: a store holding only an unrelated key is untouched apart
from the (absent) ephemerals, and the persisted status is `stopped`. -/
theorem C2_stop_boundary_effects_witness :
    (stopAtBoundary [("jobs:other", "x")] "j1" (some "m1")).1 = "stopped" ∧
      (stopAtBoundary [("jobs:other", "x")] "j1" (some "m1")).2.lookup
          "jobs:other" = some "x" := by
  have h := C2_stop_boundary_effects [("jobs:other", "x")] "j1" "m1"
  exact ⟨h.1, by
    have h5 := h.2.2.2.2 "jobs:other" (by decide) (by decide) (by decide) (by decide)
    rw [h5]; rfl⟩

/-- C2 counterexample: the claim says `model:<id>:global` and
`model:<id>:meta` are left present; on a store containing them together with
the stop flag and a gradient bucket, the stop-boundary path deletes both. -/
theorem C2_counterexample :
    ((stopAtBoundary
          [("training:j1:stop", "1"), ("model:m1:global", "blob"),
           ("model:m1:meta", "meta"), ("gradients:m1:1", "g")]
          "j1" (some "m1")).2.lookup "model:m1:global" = none) ∧
      ((stopAtBoundary
          [("training:j1:stop", "1"), ("model:m1:global", "blob"),
           ("model:m1:meta", "meta"), ("gradients:m1:1", "g")]
          "j1" (some "m1")).2.lookup "model:m1:meta" = none) := by
  constructor
  · decide
  · decide

/-- C3 counterexample: with devices never becoming available in round 1 and
no stop flag, the loop persists `current_round = 1` before any dispatch and
then exits `failed` — at both suspension points the stored `current_round`
(= 1) exceeds the highest persisted metrics round (none persisted, highest
= 0), so the claimed equality fails on the observable trace. -/
theorem C3_counterexample :
    ((loopTrace (fun _ => ⟨false, false, false, true⟩) 5 7 1
          ⟨"running", 0, []⟩).all checkpointInv) = false := by
  decide

/-- C3 (amended): the checkpoint `current_round` is always **at least** the
highest round with a persisted metrics record, but not equal to it at every
suspension or exit point: `current_round = r` is persisted at the start of
round `r`, before dispatching, so inside round `r` (and at the `stopped` /
`failed` exits taken from there) it exceeds the highest persisted metrics
round.  Stated as an invariant of every job-row state observable at a
suspension point of the round loop. -/
theorem C3_checkpoint_lower_bound :
    ∀ (fuel : Nat) (env : Nat → RoundEnv) (numRounds r : Nat) (db : JobDb),
      db.rounds.foldr max 0 ≤ db.current_round →
      db.current_round < r →
      ∀ s ∈ loopTrace env numRounds fuel r db,
        s.rounds.foldr max 0 ≤ s.current_round := by
  intro fuel
  induction fuel with
  | zero =>
    intro env n r db _ _ s hs
    simp [loopTrace] at hs
  | succ fuel ih =>
    intro env n r db h1 h2 s hs
    unfold loopTrace at hs
    by_cases hnr : n < r
    · rw [if_pos hnr] at hs
      simp only [List.mem_singleton] at hs
      subst hs
      simpa using h1
    · rw [if_neg hnr] at hs
      by_cases hstop : (env r).stopAtBoundary = true
      · rw [if_pos hstop] at hs
        simp only [List.mem_singleton] at hs
        subst hs
        simpa using h1
      · rw [if_neg hstop] at hs
        simp only [List.mem_cons] at hs
        rcases hs with hs | hs
        · subst hs
          simpa using le_of_lt (lt_of_le_of_lt h1 h2)
        · by_cases hw : (env r).stopInWait = true
          · rw [if_pos hw] at hs
            simp only [List.mem_singleton] at hs
            subst hs
            simpa using le_of_lt (lt_of_le_of_lt h1 h2)
          · rw [if_neg hw] at hs
            by_cases hd : (env r).devicesFound = true
            · rw [if_neg (by simp [hd])] at hs
              by_cases hp : (env r).persistsRecord = true
              · rw [if_pos hp] at hs
                simp only [List.mem_cons] at hs
                rcases hs with hs | hs
                · subst hs
                  simp only [List.foldr_append, List.foldr]
                  rw [foldr_max_init]
                  omega
                · refine ih env n (r + 1) _ ?_ ?_ s hs
                  · simp only [List.foldr_append, List.foldr]
                    rw [foldr_max_init]
                    omega
                  · simp
              · rw [if_neg hp] at hs
                refine ih env n (r + 1) _ ?_ ?_ s hs
                · simpa using le_of_lt (lt_of_le_of_lt h1 h2)
                · simp
            · rw [if_pos (by simp [hd])] at hs
              simp only [List.mem_singleton] at hs
              subst hs
              simpa using le_of_lt (lt_of_le_of_lt h1 h2)

/-- C3 witness: a run stopped at the very first boundary, starting from a
fresh job row, keeps the invariant on its whole trace. -/
theorem C3_checkpoint_lower_bound_witness :
    (⟨"stopped", 0, []⟩ : JobDb).rounds.foldr max 0 ≤
      (⟨"stopped", 0, []⟩ : JobDb).current_round := by
  have h := C3_checkpoint_lower_bound 5 (fun _ => ⟨true, false, false, true⟩) 3 1
    ⟨"running", 0, []⟩ (by decide) (by decide)
  exact h ⟨"stopped", 0, []⟩ (by decide)

/-- C4 (amended): `decompress_gradients` is the identity exactly on the
inputs whose first byte differs from the magic `0x01`; in particular it is
byte-exact on every well-formed legacy float32 blob whose `layer_count` is
not `1 (mod 256)` — but not "regardless of their first byte". -/
theorem C4_passthrough_identity_without_magic :
    ∀ data : List Nat, data.headD 0 ≠ MAGIC →
      decompress_gradients data = some data := by
  intro data h
  unfold decompress_gradients
  rw [if_pos (Or.inr h)]

/-- C4 witness: a concrete well-formed two-layer blob (first byte 2) passes
through unchanged. -/
theorem C4_passthrough_identity_without_magic_witness :
    decompress_gradients
        [2, 0, 0, 0, 1, 0, 0, 0, 97, 0, 0, 0, 0, 1, 0, 0, 0, 98, 1, 0, 0, 0,
         0, 0, 128, 63] =
      some
        [2, 0, 0, 0, 1, 0, 0, 0, 97, 0, 0, 0, 0, 1, 0, 0, 0, 98, 1, 0, 0, 0,
         0, 0, 128, 63] :=
  C4_passthrough_identity_without_magic _ (by decide)

/-- C4 counterexample: the 12-byte blob `[1,0,0,0 | 0,0,0,0 | 0,0,0,0]` is a
well-formed legacy float32 blob (one layer, empty name, zero elements,
parsed completely), yet its first byte collides with the magic `0x01`, so
`decompress_gradients` takes the compressed branch and fails instead of
returning it unchanged. -/
theorem C4_counterexample :
    runDeserialize id [1, 0, 0, 0, 0, 0, 0, 0, 0, 0, 0, 0] =
        some ([(([] : List Nat), ([] : List Nat))], []) ∧
      decompress_gradients [1, 0, 0, 0, 0, 0, 0, 0, 0, 0, 0, 0] ≠
        some [1, 0, 0, 0, 0, 0, 0, 0, 0, 0, 0, 0] := by
  constructor
  · decide
  · decide

/-- C5: `aggregate_gradients` returns the empty map when the sample total is
zero; otherwise it succeeds on decodable inputs of consistent per-layer
lengths and returns, for exactly the layer names appearing in some decoded
blob, the weighted sum `Σᵢ (sᵢ/S) · vᵢ` with blobs missing a layer
contributing zero (`ms` are the decoded maps of the blobs, in order; `ℓ` the
common per-layer element count). -/
theorem C5_aggregate_weighted_average :
    (∀ gradients : List (List Nat × Nat),
        (gradients.map Prod.snd).sum = 0 →
        aggregate_gradients gradients = some []) ∧
    (∀ (gradients : List (List Nat × Nat))
        (ms : List (List (List Nat × List ℚ))) (ℓ : List Nat → Nat),
        List.Forall₂ (fun g m =>
          (runDeserialize f32ToRat g.1).map Prod.fst = some m) gradients ms →
        (∀ m ∈ ms, ∀ k v, m.lookup k = some v → v.length = ℓ k) →
        (gradients.map Prod.snd).sum ≠ 0 →
        ∃ A, aggregate_gradients gradients = some A ∧
          ∀ k, A.lookup k =
            if ∃ m ∈ ms, (m.lookup k).isSome then
              some (weightedVecSum (ℓ k) ((gradients.zip ms).map
                (fun q => ((q.1.2 : ℚ) / ((gradients.map Prod.snd).sum : ℚ),
                  q.2.lookup k))))
            else none) := by
  constructor
  · intro gradients h
    unfold aggregate_gradients
    rw [if_pos h]
  · intro gradients ms ℓ hforall hms hS
    obtain ⟨A, hfold, hchar, _⟩ :=
      aggregate_outer ((gradients.map Prod.snd).sum) ℓ gradients ms []
        hforall hms (fun k v hk => absurd hk (by simp))
    refine ⟨A, ?_, fun k => hchar k⟩
    simp only [aggregate_gradients]
    rw [if_neg hS]
    exact hfold

/-- C5 witness: one blob with a single layer `[97]` holding the float32
pattern of `1.0` and two samples aggregates to that layer mapped to `[1]`. -/
theorem C5_aggregate_weighted_average_witness :
    aggregate_gradients [] = some [] ∧
      ∃ A,
        aggregate_gradients
            [([1, 0, 0, 0, 1, 0, 0, 0, 97, 1, 0, 0, 0, 0, 0, 128, 63], 2)] =
          some A ∧
        A.lookup [97] = some [1] := by
  have hdec : runDeserialize f32ToRat
      [1, 0, 0, 0, 1, 0, 0, 0, 97, 1, 0, 0, 0, 0, 0, 128, 63] =
      some ([([97], [f32ToRat 1065353216])], []) := rfl
  have hval : f32ToRat 1065353216 = 1 := by norm_num [f32ToRat]
  have hdec2 : (runDeserialize f32ToRat
      [1, 0, 0, 0, 1, 0, 0, 0, 97, 1, 0, 0, 0, 0, 0, 128, 63]).map Prod.fst =
      some [([97], [(1 : ℚ)])] := by
    rw [hdec, hval]
    rfl
  have hlen : ∀ m ∈ [[(([97] : List Nat), [(1 : ℚ)])]], ∀ k v,
      m.lookup k = some v → v.length = (fun _ : List Nat => 1) k := by
    intro m hm k v hv
    have hmeq : m = [([97], [(1 : ℚ)])] := by simpa using hm
    subst hmeq
    simp only [List.lookup] at hv
    cases hbeq : (k == [97]) with
    | true =>
      rw [hbeq] at hv
      have : v = [1] := by simpa using hv.symm
      subst this
      rfl
    | false =>
      rw [hbeq] at hv
      exact absurd hv (by simp)
  obtain ⟨A, hA, hchar⟩ := C5_aggregate_weighted_average.2
    [([1, 0, 0, 0, 1, 0, 0, 0, 97, 1, 0, 0, 0, 0, 0, 128, 63], 2)]
    [[(([97] : List Nat), [(1 : ℚ)])]] (fun _ => 1)
    (List.Forall₂.cons hdec2 List.Forall₂.nil) hlen (by decide)
  refine ⟨C5_aggregate_weighted_average.1 [] rfl, A, hA, ?_⟩
  rw [hchar [97]]
  rw [if_pos ⟨[([97], [(1 : ℚ)])], by simp, by simp [List.lookup]⟩]
  simp only [weightedVecSum, vecScale, List.zip, List.map, List.foldr,
    List.lookup, List.replicate]
  norm_num

/-- C6: `apply_gradients` returns, for each layer of the weights map in
order, `old + delta` (elementwise, the flat model of reshape-to-shape) when
the layer is present in the averaged deltas and an unchanged copy when it is
absent — provided each present delta has the layer's element count, as
numpy's reshape requires; and the `learning_rate` argument has no effect. -/
theorem C6_apply_gradients_characterization :
    (∀ (weights grads : List (List Nat × List ℚ)) (lr : ℚ),
        (∀ p ∈ weights, ∀ g, grads.lookup p.1 = some g →
          g.length = p.2.length) →
        apply_gradients weights grads lr =
          some (weights.map (fun p =>
            match grads.lookup p.1 with
            | some g => (p.1, List.zipWith (· + ·) p.2 g)
            | none => (p.1, p.2)))) ∧
    (∀ (weights grads : List (List Nat × List ℚ)) (lr lr' : ℚ),
        apply_gradients weights grads lr = apply_gradients weights grads lr') := by
  constructor
  · intro weights grads lr h
    unfold apply_gradients
    refine mapM_option_eq_map _ _ weights (fun p hp => ?_)
    cases hg : grads.lookup p.1 with
    | none => rfl
    | some g => simp [hg, h p hp g hg]
  · intro weights grads lr lr'
    rfl

/-- C6 witness: a two-layer weights map with one matching delta. -/
theorem C6_apply_gradients_characterization_witness :
    apply_gradients [([0], [1, 2]), ([1], [5])] [([0], [10, 20])] (7 / 10) =
      some [([0], [11, 22]), ([1], [5])] := by
  have h := C6_apply_gradients_characterization.1
    [([0], [1, 2]), ([1], [5])] [([0], [10, 20])] (7 / 10) (by decide)
  rw [h]
  simp [List.lookup]
  norm_num

/-- C7 (amended): `deserialize_weight_deltas` consumes exactly `layer_count`
records and then returns; bytes remaining after the last layer are silently
ignored — appending any suffix to a fully-consumed blob leaves the decoded
result unchanged (and succeeding), it does not raise an error. -/
theorem C7_trailing_bytes_ignored :
    ∀ (data : List Nat) (r : List (List Nat × List Nat)),
      runDeserialize id data = some (r, []) →
      ∀ extra : List Nat, runDeserialize id (data ++ extra) = some (r, extra) := by
  intro data r h extra
  unfold runDeserialize at h ⊢
  cases h1 : readU32 data with
  | none => rw [h1] at h; exact absurd h (by simp)
  | some p =>
    obtain ⟨layerCount, d1⟩ := p
    rw [h1] at h
    rw [readU32_append h1]
    simpa using @parseLayers_append _ _ extra _ _ _ _ _ h

/-- C7 witness: the empty-map blob `[0,0,0,0]` parses to `{}` consuming all
four bytes; with a trailing byte appended it still parses to `{}`, leaving
the byte unconsumed. -/
theorem C7_trailing_bytes_ignored_witness :
    runDeserialize id [0, 0, 0, 0, 99] = some ([], [99]) :=
  C7_trailing_bytes_ignored [0, 0, 0, 0] [] (by decide) [99]

/-- C7 counterexample: the claim says decoding fails when bytes remain after
the last layer; on `[0,0,0,0,99]` one byte remains after the zero declared
layers, yet `deserialize_weight_deltas` succeeds and returns the empty
map. -/
theorem C7_counterexample :
    deserialize_weight_deltas [0, 0, 0, 0, 99] = some [] ∧
      (runDeserialize id [0, 0, 0, 0, 99]).map Prod.snd = some [99] := by
  constructor
  · decide
  · decide

/-- C8: with the scheduler enabled, a device fails the eligibility filter if
and only if its reported battery is below `min_battery`, or it reports
low-power mode while the config disallows it, or its thermal pressure
exceeds `max_thermal_pressure`, or its CPU usage exceeds `max_cpu_usage`; a
device missing the metric of a predicate passes that predicate (no
disjunct can fire without the metric being present), and everything
`select_devices` returns — the only devices that are ever scored — passed
the filter. -/
theorem C8_eligibility_and_selection :
    (∀ (d : SchedDevice) (cfg : SchedulerConfig),
        _is_eligible d cfg = false ↔
          ((∃ b, d.battery_level = some b ∧ b < cfg.min_battery) ∨
           ((∃ v, _get_metric d "is_low_power_mode" = some v ∧
              v.truthy = true) ∧ cfg.allow_low_power_mode = false) ∨
           (∃ t, _get_metric d "thermal_pressure" = some t ∧
              cfg.max_thermal_pressure < t.toQ) ∨
           (∃ c, _get_metric d "cpu_usage" = some c ∧
              cfg.max_cpu_usage < c.toQ))) ∧
    (∀ (devices : List SchedDevice) (cfg : SchedulerConfig) (m : Nat)
        (sel : List SchedDevice),
        cfg.enabled = true → select_devices devices cfg m = some sel →
        ∀ d ∈ sel, _is_eligible d cfg = true) := by
  constructor
  · intro d cfg
    unfold _is_eligible
    split_ifs with h1 h2 h3 h4
    · simp only [eq_self_iff_true, true_iff]
      refine Or.inl ?_
      cases hb : d.battery_level with
      | none => rw [hb] at h1; exact absurd h1 (by simp)
      | some b =>
        rw [hb] at h1
        exact ⟨b, rfl, of_decide_eq_true h1⟩
    · simp only [eq_self_iff_true, true_iff]
      refine Or.inr (Or.inl ?_)
      rw [Bool.and_eq_true] at h2
      obtain ⟨h2l, h2r⟩ := h2
      refine ⟨?_, by simpa using h2r⟩
      cases hl : _get_metric d "is_low_power_mode" with
      | none => rw [hl] at h2l; exact absurd h2l (by simp)
      | some v => rw [hl] at h2l; exact ⟨v, rfl, h2l⟩
    · simp only [eq_self_iff_true, true_iff]
      refine Or.inr (Or.inr (Or.inl ?_))
      cases ht : _get_metric d "thermal_pressure" with
      | none => rw [ht] at h3; exact absurd h3 (by simp)
      | some t => rw [ht] at h3; exact ⟨t, rfl, of_decide_eq_true h3⟩
    · simp only [eq_self_iff_true, true_iff]
      refine Or.inr (Or.inr (Or.inr ?_))
      cases hc : _get_metric d "cpu_usage" with
      | none => rw [hc] at h4; exact absurd h4 (by simp)
      | some c => rw [hc] at h4; exact ⟨c, rfl, of_decide_eq_true h4⟩
    · simp only [Bool.true_eq_false, false_iff]
      intro hcontra
      rcases hcontra with
        ⟨b, hb, hlt⟩ | ⟨⟨v, hv, htr⟩, hallow⟩ | ⟨t, ht, hgt⟩ | ⟨c, hc, hgt⟩
      · rw [hb] at h1; exact h1 (by simpa using hlt)
      · rw [hv] at h2; exact h2 (by simp [htr, hallow])
      · rw [ht] at h3; exact h3 (by simpa using hgt)
      · rw [hc] at h4; exact h4 (by simpa using hgt)
  · intro devices cfg m sel hen hsel d hd
    unfold select_devices at hsel
    rw [hen] at hsel
    simp only [Bool.not_true, Bool.false_eq_true, if_false] at hsel
    split at hsel
    · exact absurd hsel (by simp)
    · revert hd
      split at hsel <;> rw [Option.some.injEq] at hsel <;> subst hsel <;>
        intro hd
      · rw [List.mem_mergeSort] at hd
        simpa using List.of_mem_filter hd
      · have hd2 := List.mem_of_mem_take hd
        rw [List.mem_mergeSort] at hd2
        simpa using List.of_mem_filter hd2

/-- C8 witness: a device reporting low-power mode under a config that
disallows it is dropped; a device with no telemetry passes; a singleton
eligible pool is selected and consists of eligible devices. -/
theorem C8_eligibility_and_selection_witness :
    _is_eligible
        ⟨0, none, none, some [("is_low_power_mode", .b true)], none, none⟩
        { enabled := true } = false ∧
      (∀ d ∈ [(⟨1, none, none, none, none, none⟩ : SchedDevice)],
        _is_eligible d { enabled := true } = true) := by
  constructor
  · exact (C8_eligibility_and_selection.1 _ _).mpr
      (Or.inr (Or.inl ⟨⟨.b true, rfl, rfl⟩, rfl⟩))
  · refine C8_eligibility_and_selection.2
      [⟨1, none, none, none, none, none⟩] { enabled := true } 1
      [⟨1, none, none, none, none, none⟩] rfl ?_
    unfold select_devices
    have he : _is_eligible ⟨1, none, none, none, none, none⟩
        { enabled := true } = true := rfl
    simp [List.filter, he, List.mergeSort_singleton]

/-- C10: `serialize_weight_deltas(d, L)` encodes exactly the names of `L`
that are keys of `d`, in the order of `L` (default `L` is `LAYER_NAMES`),
silently omitting keys of `d` outside `L`; decoding the result gives the
restriction of `d` to `L` (conjunct on `runDeserialize`, consuming every
byte), whose lookup function agrees with `d` on `L` and is `none` off `L` —
hence the round trip is the identity (as a key-value map) precisely when
every key of `d` appears in `L`. -/
theorem C10_serialize_roundtrip :
    (∀ d : List (List Nat × List Nat),
        serialize_weight_deltas d none =
          serialize_weight_deltas d (some LAYER_NAMES)) ∧
    (∀ (d : List (List Nat × List Nat)) (L : List (List Nat)),
        (∀ p ∈ d, p.1.length < 2 ^ 32 ∧ p.2.length < 2 ^ 32 ∧
          ∀ v ∈ p.2, v < 2 ^ 32) →
        L.length < 2 ^ 32 → L.Nodup →
        ∃ bytes,
          serialize_weight_deltas d (some L) = some bytes ∧
          runDeserialize id bytes =
            some ((L.filter (fun k => (d.lookup k).isSome)).map
                (fun k => (k, (d.lookup k).getD [])), []) ∧
          (∀ k, ((L.filter (fun k => (d.lookup k).isSome)).map
                (fun k => (k, (d.lookup k).getD []))).lookup k =
              if k ∈ L then d.lookup k else none) ∧
          ((∀ p ∈ d, p.1 ∈ L) →
            ∀ k, ((L.filter (fun k => (d.lookup k).isSome)).map
                (fun k => (k, (d.lookup k).getD []))).lookup k = d.lookup k) ∧
          (∀ k v, d.lookup k = some v → k ∉ L →
            ((L.filter (fun k => (d.lookup k).isSome)).map
                (fun k => (k, (d.lookup k).getD []))).lookup k = none)) := by
  constructor
  · intro d; rfl
  · intro d L hb hL hndL
    have hlayers : ∀ k ∈ L.filter (fun k => (d.lookup k).isSome),
        (d.lookup k).isSome := by
      intro k hk
      simpa using List.of_mem_filter hk
    have hbounds : ∀ k ∈ L.filter (fun k => (d.lookup k).isSome),
        k.length < 2 ^ 32 ∧ ((d.lookup k).getD []).length < 2 ^ 32 ∧
          ∀ v ∈ (d.lookup k).getD [], v < 2 ^ 32 := by
      intro k hk
      cases hkk : d.lookup k with
      | none => exact absurd (hkk ▸ hlayers k hk) (by simp)
      | some v =>
        have hmem := lookup_mem d k v hkk
        have := hb (k, v) hmem
        simpa [hkk] using this
    have hmapM : (L.filter (fun k => (d.lookup k).isSome)).mapM
          (fun k => serializeLayer k ((d.lookup k).getD [])) =
        some ((L.filter (fun k => (d.lookup k).isSome)).map
          (fun k => layerBytes k ((d.lookup k).getD []))) := by
      refine mapM_option_eq_map _ _ _ (fun k hk => ?_)
      obtain ⟨h1, h2, _⟩ := hbounds k hk
      exact serializeLayer_eq_layerBytes h1 h2
    refine ⟨toLE4 (L.filter (fun k => (d.lookup k).isSome)).length ++
      ((L.filter (fun k => (d.lookup k).isSome)).map
        (fun k => layerBytes k ((d.lookup k).getD []))).flatten, ?_, ?_, ?_, ?_, ?_⟩
    · unfold serialize_weight_deltas
      simp only [Option.getD_some]
      rw [if_pos (lt_of_le_of_lt (List.length_filter_le _ L) hL), hmapM]
    · unfold runDeserialize
      rw [readU32_toLE4 (lt_of_le_of_lt (List.length_filter_le _ L) hL)]
      have hparse := parseLayers_encoded
        ((L.filter (fun k => (d.lookup k).isSome)).map
          (fun k => (k, (d.lookup k).getD []))) [] []
        (by
          intro p hp
          obtain ⟨k, hk, hpk⟩ := List.mem_map.mp hp
          obtain ⟨h1, h2, h3⟩ := hbounds k hk
          subst hpk
          exact ⟨h1, h2, h3⟩)
      rw [List.append_nil] at hparse
      rw [List.length_map, List.map_map] at hparse
      have hcomp : ((fun p : List Nat × List Nat => layerBytes p.1 p.2) ∘
          (fun k => (k, (d.lookup k).getD []))) =
          (fun k => layerBytes k ((d.lookup k).getD [])) := rfl
      rw [hcomp] at hparse
      show parseLayers id (L.filter (fun k => (d.lookup k).isSome)).length
          ((L.filter (fun k => (d.lookup k).isSome)).map
            (fun k => layerBytes k ((d.lookup k).getD []))).flatten [] = _
      rw [hparse]
      rw [foldl_dictInsert_fresh _ []
        (by
          rw [List.map_map]
          have : (Prod.fst ∘ fun k : List Nat => (k, (d.lookup k).getD [])) =
              (id : List Nat → List Nat) := rfl
          rw [this, List.map_id]
          exact hndL.filter _)
        (by intro p _ q hq; exact absurd hq (by simp))]
      rw [List.nil_append]
    · intro k
      rw [lookup_map_tag (fun k => (d.lookup k).getD []) _ k]
      by_cases hkL : k ∈ L
      · cases hkk : d.lookup k with
        | none => simp [List.mem_filter, hkk, hkL]
        | some v => simp [List.mem_filter, hkk, hkL]
      · have : k ∉ L.filter (fun k => (d.lookup k).isSome) :=
          fun hk => hkL (List.mem_of_mem_filter hk)
        simp [this, hkL]
    · intro hcov k
      rw [lookup_map_tag (fun k => (d.lookup k).getD []) _ k]
      by_cases hkL : k ∈ L
      · cases hkk : d.lookup k with
        | none => simp [List.mem_filter, hkk, hkL]
        | some v => simp [List.mem_filter, hkk, hkL]
      · have hnone : d.lookup k = none := by
          cases hkk : d.lookup k with
          | none => rfl
          | some v => exact absurd (hcov (k, v) (lookup_mem d k v hkk)) hkL
        have : k ∉ L.filter (fun k => (d.lookup k).isSome) :=
          fun hk => hkL (List.mem_of_mem_filter hk)
        simp [this, hnone]
    · intro k v hkv hkL
      rw [lookup_map_tag (fun k => (d.lookup k).getD []) _ k]
      have : k ∉ L.filter (fun k => (d.lookup k).isSome) :=
        fun hk => hkL (List.mem_of_mem_filter hk)
      simp [this]

/-- C10 witness: a single-layer map under the default layer list
round-trips to itself. -/
theorem C10_serialize_roundtrip_witness :
    ∃ bytes,
      serialize_weight_deltas [(strBytes "hidden_bias", [5])]
          (some LAYER_NAMES) = some bytes ∧
        runDeserialize id bytes = some ([(strBytes "hidden_bias", [5])], []) := by
  obtain ⟨bytes, h1, h2, _, _, _⟩ := C10_serialize_roundtrip.2
    [(strBytes "hidden_bias", [5])] LAYER_NAMES (by decide) (by decide) (by decide)
  refine ⟨bytes, h1, ?_⟩
  rw [h2]
  decide

/-- C9: with the scheduler disabled `select_devices` returns its input list
verbatim for every input and every `min_devices` (never the `None`
insufficient-pool signal, even on an empty pool), so the coordinator's
device-wait loop succeeds at its first attempt with whatever devices are
online. -/
theorem C9_scheduler_disabled_verbatim :
    (∀ (devices : List SchedDevice) (cfg : SchedulerConfig) (m : Nat),
        cfg.enabled = false → select_devices devices cfg m = some devices) ∧
    (∀ (stopAt : Nat → Bool) (onlineAt : Nat → List SchedDevice)
        (cfg : SchedulerConfig) (m : Nat),
        cfg.enabled = false → stopAt 0 = false →
        deviceWaitLoop stopAt onlineAt cfg m = .proceed (onlineAt 0) 0) := by
  have hsel : ∀ (devices : List SchedDevice) (cfg : SchedulerConfig) (m : Nat),
      cfg.enabled = false → select_devices devices cfg m = some devices := by
    intro devices cfg m h
    unfold select_devices
    rw [h]
    rfl
  refine ⟨hsel, ?_⟩
  intro stopAt onlineAt cfg m h hstop
  show deviceWaitAux stopAt onlineAt cfg m (29 + 1) 0 = _
  unfold deviceWaitAux
  rw [hstop, hsel (onlineAt 0) cfg m h]
  rfl

/-- C9 witness: an empty pool with `min_devices = 5` and the scheduler off is
returned unchanged, and the wait loop proceeds at attempt 0. -/
theorem C9_scheduler_disabled_verbatim_witness :
    select_devices [] { enabled := false } 5 = some [] ∧
      deviceWaitLoop (fun _ => false) (fun _ => []) { enabled := false } 5 =
        .proceed [] 0 :=
  ⟨C9_scheduler_disabled_verbatim.1 [] { enabled := false } 5 rfl,
   C9_scheduler_disabled_verbatim.2 (fun _ => false) (fun _ => [])
     { enabled := false } 5 rfl rfl⟩

end EdgeOrchestra
